import Mathlib

/-!
Verification of the Assessment & Completion Engine of an LMS backend
(Django application `lms_backend`): attempt gating, MCQ/QA auto-grading,
progress calculation, completion detection and certificate issuance.

The definitions below are shallow embeddings of:
  - `api/views.py`, `AssignmentSubmissionViewSet.perform_create` (gate and
    auto-graders) and the `grade` action (manual grading);
  - `myapp/models.py`, `Enrollment.calculate_progress`,
    `Enrollment.check_completion_and_issue_certificate`,
    `ContentProgress.mark_as_completed`, `AssignmentSubmission.grade_submission`.

Numbers are modelled with `ℚ` (Python ints/floats/Decimals), strings with
`List Char`, and the relational store with explicit state records.
-/

namespace LMS

/-- Round-half-to-even of a rational to an integer, the rounding used by
the Python builtin `round` (modelled over exact rationals). -/
def rhe (x : ℚ) : ℤ :=
  let f : ℤ := ⌊x⌋
  let r : ℚ := x - (f : ℚ)
  if r < 1/2 then f
  else if 1/2 < r then f + 1
  else if f % 2 = 0 then f else f + 1

/-- Python `round(x, 2)` over exact rationals. -/
def pyRound2 (x : ℚ) : ℚ := (rhe (x * 100) : ℚ) / 100

/-- Python `round(x, 1)` over exact rationals. -/
def pyRound1 (x : ℚ) : ℚ := (rhe (x * 10) : ℚ) / 10

/-- Text is modelled as a list of characters. -/
abbrev Str := List Char

/-- Python `s.lower()` (character-wise, as used on ASCII keyword data). -/
def pyLower (s : Str) : Str := s.map Char.toLower

/-- Python `s.strip()`: drop whitespace from both ends. -/
def pyStrip (s : Str) : Str :=
  ((s.dropWhile Char.isWhitespace).reverse.dropWhile Char.isWhitespace).reverse

/-- Python substring test `pat in hay`. -/
def isSubstr (pat : Str) : Str → Bool
  | [] => pat.isEmpty
  | c :: t => pat.isPrefixOf (c :: t) || isSubstr pat t

/-- Deduplicate a list keeping first occurrences, as the `seen` set loop in
`norm_list` does. -/
def dedupFirst (seen : List Str) : List Str → List Str
  | [] => []
  | s :: rest =>
      if s ∈ seen then dedupFirst seen rest
      else s :: dedupFirst (s :: seen) rest

/-- `norm_list` from `perform_create`: strip + lowercase each entry, drop
entries that are empty after stripping, deduplicate keeping order. -/
def normList (items : List Str) : List Str :=
  dedupFirst [] ((items.filter (fun s => !(pyStrip s).isEmpty)).map
    (fun s => pyLower (pyStrip s)))

/-- Enrollment status (`Enrollment.STATUS_CHOICES`). -/
inductive EStatus where
  | active
  | completed
deriving DecidableEq, Repr

/-- Submission status (`AssignmentSubmission.STATUS_CHOICES`). -/
inductive SStatus where
  | submitted
  | graded
deriving DecidableEq, Repr

/-- Assignment type (`Assignment.ASSIGNMENT_TYPES`). -/
inductive AType where
  | mcq
  | qa
deriving DecidableEq, Repr

/-- One `AssignmentSubmission` row, restricted to the fields the engine
reads: 1-based attempt number, status, and the nullable grade. -/
structure Sub where
  attempt_number : ℕ
  status : SStatus
  grade : Option ℚ
deriving DecidableEq, Repr

/-- Result of the attempt gate in `perform_create`. -/
inductive GateResult where
  | alreadyPassed
  | noAttemptsLeft
  | pendingGrading
  | allow (attempt_number : ℕ)
deriving DecidableEq, Repr

/-- PostgreSQL maximum for nullable grades under `order_by` descending:
NULL sorts first (highest), otherwise the larger value wins.  Used to model
`existing.filter(status=graded).order_by(-grade).first()`. -/
def betterGrade (a b : Option ℚ) : Option ℚ :=
  match a, b with
  | none, _ => none
  | _, none => none
  | some x, some y => some (max x y)

/-- Grade of the best graded prior submission (None when there is none),
i.e. the `best` row of the gate. -/
def bestGradedGrade (existing : List Sub) : Option (Option ℚ) :=
  match existing.filter (fun s => s.status = SStatus.graded) with
  | [] => none
  | s :: rest => some (rest.foldl (fun acc t => betterGrade acc t.grade) s.grade)

/-- The `best and best.grade is not None and best.grade >= passing_grade`
check of the gate. -/
def passedCheck (passing_grade : ℚ) (existing : List Sub) : Bool :=
  match bestGradedGrade existing with
  | some (some g) => passing_grade ≤ g
  | _ => false

/-- The attempt gate of `AssignmentSubmissionViewSet.perform_create`,
evaluated over the prior submissions of one (enrollment, assignment) pair. -/
def submissionGate (passing_grade : ℚ) (max_attempts : ℕ) (atype : AType)
    (existing : List Sub) : GateResult :=
  let attempts_used := existing.length
  if passedCheck passing_grade existing then GateResult.alreadyPassed
  else if max_attempts ≤ attempts_used then GateResult.noAttemptsLeft
  else if atype = AType.qa &&
      existing.any (fun s => s.status = SStatus.submitted) then
    GateResult.pendingGrading
  else GateResult.allow (attempts_used + 1)

/-- One mcq `AssignmentQuestion` together with the correct-option id set
derived from its options (`{opt.id for opt in q.options if opt.is_correct}`). -/
structure MCQQuestion where
  id : ℕ
  points : ℚ
  correct : Finset ℕ
deriving DecidableEq

/-- One entry of the `answers` payload for an mcq assignment:
`{question_id, selected_option_ids}` (either key may be missing). -/
structure MCQAnswer where
  question_id : Option ℕ
  selected : Finset ℕ
deriving DecidableEq

/-- Dictionary lookup `correct_map[qid]` (question ids are primary keys,
hence unique, so first-match lookup agrees with the dict). -/
def findQ (questions : List MCQQuestion) (qid : ℕ) : Option MCQQuestion :=
  questions.find? (fun q => q.id = qid)

/-- The mcq loop body once the referenced question is resolved: all points
iff the selected set equals the correct set exactly. -/
def mcqScore (q : MCQQuestion) (ans : MCQAnswer) : ℚ :=
  if ans.selected = q.correct then q.points else 0

/-- Points one `answers` entry contributes in the mcq loop: `mcqScore` of the
referenced question, 0 for an unknown or missing question id. -/
def mcqCredit (questions : List MCQQuestion) (ans : MCQAnswer) : ℚ :=
  match ans.question_id with
  | none => 0
  | some qid =>
      match findQ questions qid with
      | none => 0
      | some q => mcqScore q ans

/-- Sum of the question points (`total_points_available` before `or 1`). -/
def mcqTotal (questions : List MCQQuestion) : ℚ := (questions.map (·.points)).sum

/-- Python `x or 1` on a numeric total: 0 is falsy and becomes 1. -/
def orOne (t : ℚ) : ℚ := if t = 0 then 1 else t

/-- `earned_points` of the mcq auto-grader. -/
def mcqEarned (questions : List MCQQuestion) (answers : List MCQAnswer) : ℚ :=
  (answers.map (mcqCredit questions)).sum

/-- The grade the mcq auto-grader stores:
`round((earned_points / total_points_available) * 100, 2)`. -/
def mcqGrade (questions : List MCQQuestion) (answers : List MCQAnswer) : ℚ :=
  pyRound2 (mcqEarned questions answers / orOne (mcqTotal questions) * 100)

/-- One qa `AssignmentQuestion` with its raw keyword configuration. -/
structure QAQuestion where
  id : ℕ
  points : ℚ
  keywords : List Str
  required_keywords : List Str
  negative_keywords : List Str
  acceptable_answers : List Str
deriving DecidableEq

/-- One entry of the `answers` payload for a qa assignment:
`{question_id, text_answer}` (either key may be missing). -/
structure QAAnswer where
  question_id : Option ℕ
  text_answer : Option Str
deriving DecidableEq

/-- Lookup in the `qcfg` dictionary (ids are primary keys, unique). -/
def findQA (questions : List QAQuestion) (qid : ℕ) : Option QAQuestion :=
  questions.find? (fun q => q.id = qid)

/-- The purely textual observations the qa loop makes about one answer
against one question configuration; each field is the corresponding
subexpression of the source, with the keyword lists normalized through
`norm_list` exactly as `qcfg` builds them and the answer text lowercased
(`text`) resp. additionally stripped (`norm_text`). -/
structure QAMatch where
  /-- `cfg[acceptable]` is nonempty. -/
  acceptNonempty : Bool
  /-- `norm_text in cfg[acceptable]`. -/
  acceptHit : Bool
  /-- `cfg[required]` is nonempty. -/
  reqNonempty : Bool
  /-- `all(r in text for r in cfg[required])`. -/
  reqAllPresent : Bool
  /-- `len(cfg[keywords])`. -/
  optLen : ℕ
  /-- `sum(1 for kw in cfg[keywords] if kw in text)`. -/
  optMatched : ℕ
  /-- `cfg[negative]` is nonempty. -/
  negNonempty : Bool
  /-- `sum(1 for kw in cfg[negative] if kw in text)`. -/
  negCount : ℕ
deriving DecidableEq, Repr

/-- Evaluate the textual observations of the qa loop on the raw question
configuration and the raw answer text. -/
def qaMatch (q : QAQuestion) (text_answer : Option Str) : QAMatch :=
  let text := pyLower (text_answer.getD [])
  let norm_text := pyStrip text
  let acceptable := normList q.acceptable_answers
  let required := normList q.required_keywords
  let opt := normList q.keywords
  let neg := normList q.negative_keywords
  { acceptNonempty := !acceptable.isEmpty
    , acceptHit := acceptable.contains norm_text
    , reqNonempty := !required.isEmpty
    , reqAllPresent := required.all (fun r => isSubstr r text)
    , optLen := opt.length
    , optMatched := (opt.filter (fun kw => isSubstr kw text)).length
    , negNonempty := !neg.isEmpty
    , negCount := (neg.filter (fun kw => isSubstr kw text)).length }

/-- The qa loop body once the referenced question is resolved, following the
source control flow: skip nonpositive points; full points on an
acceptable-answer hit; zero when a required keyword is missing; otherwise
proportional optional credit minus 20 percent of the points per matched
negative keyword, clamped to [0, points]. -/
def qaScore (q : QAQuestion) (ans : QAAnswer) : ℚ :=
  let pts := q.points
  if pts ≤ 0 then 0
  else
    let m := qaMatch q ans.text_answer
    if m.acceptNonempty && m.acceptHit then pts
    else if m.reqNonempty && !m.reqAllPresent then 0
    else
      let opt_credit :=
        if m.optLen ≠ 0 then pts * ((m.optMatched : ℚ) / (m.optLen : ℚ))
        else pts
      let penalty :=
        if m.negNonempty then (pts * (2/10)) * (m.negCount : ℚ)
        else 0
      max 0 (min pts (opt_credit - penalty))

/-- Credit one `answers` entry contributes in the qa loop: `qaScore` of the
referenced question, 0 for an unknown or missing question id. -/
def qaCredit (questions : List QAQuestion) (ans : QAAnswer) : ℚ :=
  match ans.question_id with
  | none => 0
  | some qid =>
      match findQA questions qid with
      | none => 0
      | some q => qaScore q ans

/-- Sum of the qa question points (`total_points_available` before `or 1`). -/
def qaTotal (questions : List QAQuestion) : ℚ := (questions.map (·.points)).sum

/-- `earned_points` of the qa auto-grader. -/
def qaEarned (questions : List QAQuestion) (answers : List QAAnswer) : ℚ :=
  (answers.map (qaCredit questions)).sum

/-- The grade the qa auto-grader stores. -/
def qaGrade (questions : List QAQuestion) (answers : List QAAnswer) : ℚ :=
  pyRound2 (qaEarned questions answers / orOne (qaTotal questions) * 100)

/-- One assignment of the course as seen by one enrollment: its gating
parameters and the submissions of this enrollment, in creation order. -/
structure Asg where
  passing_grade : ℚ
  max_attempts : ℕ
  assignment_type : AType
  subs : List Sub
deriving DecidableEq

/-- The `AssignmentSubmission.objects.filter(..., status=graded,
grade__gte=passing_grade).exists()` check of `calculate_progress` (SQL
`grade >= x` is false on NULL). -/
def asgPassed (a : Asg) : Bool :=
  a.subs.any (fun s =>
    s.status = SStatus.graded &&
      match s.grade with
      | some g => decide (a.passing_grade ≤ g)
      | none => false)

/-- State of one enrollment (one student in one course): enrollment status,
number of Certificate rows for the (student, course) pair, the completed
flag of each content item of the course, and each assignment with this
enrollment's submissions. -/
structure EngineState where
  status : EStatus
  certCount : ℕ
  contents : List Bool
  asgs : List Asg
deriving DecidableEq

/-- `Enrollment.calculate_progress`. -/
def calculate_progress (s : EngineState) : ℚ :=
  let total_content := s.contents.length
  let completed_content := (s.contents.filter id).length
  let total_asg := s.asgs.length
  let passed_asg := (s.asgs.filter asgPassed).length
  let total_items := total_content + total_asg
  if total_items = 0 then 0
  else pyRound1 (((completed_content + passed_asg : ℕ) : ℚ) / (total_items : ℚ) * 100)

/-- `Enrollment.check_completion_and_issue_certificate` in a sequential run:
recompute progress; on the first transition past 100 percent mark the
enrollment completed, then create the certificate unless one exists; the
boolean is the return value of the method. -/
def check_completion (s : EngineState) : EngineState × Bool :=
  let progress := calculate_progress s
  if 100 ≤ progress ∧ s.status ≠ EStatus.completed then
    let s1 := { s with status := EStatus.completed }
    if s1.certCount = 0 then ({ s1 with certCount := 1 }, true)
    else (s1, false)
  else (s, false)

/-- `check_completion_and_issue_certificate` with an adversarial
interleaving: `raceInsert` states that a concurrent request inserts the
certificate between the `exists()` fast path and `Certificate.objects.create`.
The (student, course) unique constraint rejects the second row, and the
method wraps the create in no try/except, so the violation escapes as an
error; the constraint itself keeps the certificate count at one. -/
def check_completion_race (raceInsert : Bool) (s : EngineState) :
    Except Unit (EngineState × Bool) :=
  let progress := calculate_progress s
  if 100 ≤ progress ∧ s.status ≠ EStatus.completed then
    let s1 := { s with status := EStatus.completed }
    if s1.certCount = 0 then
      let s2 := if raceInsert then { s1 with certCount := 1 } else s1
      if s2.certCount = 0 then Except.ok ({ s2 with certCount := 1 }, true)
      else Except.error ()
    else Except.ok (s1, false)
  else Except.ok (s, false)

/-- Rewrite the element at an index in place, identity when out of range
(an UPDATE of one row by key). -/
def updateAt {α : Type} : List α → ℕ → (α → α) → List α
  | [], _, _ => []
  | a :: l, 0, f => f a :: l
  | a :: l, i + 1, f => a :: updateAt l i f

/-- The field writes of `AssignmentSubmission.grade_submission` on submission
`j` of assignment `i`: store the supplied grade as is and move the status to
graded. -/
def grade_submission_step (s : EngineState) (i j : ℕ) (g : ℚ) : EngineState :=
  { s with
    asgs := updateAt s.asgs i (fun a =>
      { a with subs := updateAt a.subs j (fun sub =>
          { sub with grade := some g, status := SStatus.graded }) }) }

/-- `AssignmentSubmission.grade_submission`: write grade and status, then run
the completion recheck. -/
def grade_submission (s : EngineState) (i j : ℕ) (g : ℚ) : EngineState :=
  (check_completion (grade_submission_step s i j g)).1

/-- `grade_submission` with the completion recheck modelled as a fallible
call (the recomputation touches the database and may raise).  The grade
write is saved first and each save commits on its own, so it persists either
way; the method has no try/except, so a recheck failure propagates. -/
def grade_submissionE (chk : EngineState → Except Unit EngineState)
    (s : EngineState) (i j : ℕ) (g : ℚ) : EngineState × Except Unit Unit :=
  let s1 := grade_submission_step s i j g
  match chk s1 with
  | Except.ok s2 => (s2, Except.ok ())
  | Except.error e => (s1, Except.error e)

/-- The completed-flag write of `ContentProgress.mark_as_completed`. -/
def mark_content_step (s : EngineState) (idx : ℕ) : EngineState :=
  { s with contents := updateAt s.contents idx (fun _ => true) }

/-- `ContentProgress.mark_as_completed`: a false→true flip followed by the
completion recheck; a no-op when already completed. -/
def mark_as_completed (s : EngineState) (idx : ℕ) : EngineState :=
  match s.contents.get? idx with
  | none => s
  | some c =>
      if c then s
      else (check_completion (mark_content_step s idx)).1

/-- `mark_as_completed` with the completion recheck modelled as a fallible
call, as in `grade_submissionE`: the flag write persists, the failure
propagates. -/
def mark_as_completedE (chk : EngineState → Except Unit EngineState)
    (s : EngineState) (idx : ℕ) : EngineState × Except Unit Unit :=
  match s.contents.get? idx with
  | none => (s, Except.ok ())
  | some c =>
      if c then (s, Except.ok ())
      else
        let s1 := mark_content_step s idx
        match chk s1 with
        | Except.ok s2 => (s2, Except.ok ())
        | Except.error e => (s1, Except.error e)

/-- The events of the engine that touch one enrollment: an attempt request
(whose auto-grading outcome, if any, is the stored grade `autoGrade`),
manual grading, marking a content item complete, and a bare completion
recheck. -/
inductive Op where
  | attempt (i : ℕ) (autoGrade : Option ℚ)
  | gradeManual (i : ℕ) (j : ℕ) (g : ℚ)
  | markContent (idx : ℕ)
  | refresh

/-- One engine event applied to the enrollment state.  An attempt runs the
gate over the prior submissions of the assignment and, when allowed, appends
the new submission with `attempt_number = count(prior) + 1` (graded at once
when auto-grading applies, as `perform_create` does for mcq and qa). -/
def step (s : EngineState) : Op → EngineState
  | Op.attempt i g =>
      match s.asgs.get? i with
      | none => s
      | some a =>
          match submissionGate a.passing_grade a.max_attempts a.assignment_type a.subs with
          | GateResult.allow n =>
              let newSub : Sub :=
                { attempt_number := n
                  , status := if g.isSome then SStatus.graded else SStatus.submitted
                  , grade := g }
              { s with asgs := updateAt s.asgs i (fun a2 => { a2 with subs := a2.subs ++ [newSub] }) }
          | _ => s
  | Op.gradeManual i j g => grade_submission s i j g
  | Op.markContent idx => mark_as_completed s idx
  | Op.refresh => (check_completion s).1

/-- A sequence of engine events. -/
def run (s : EngineState) (ops : List Op) : EngineState := ops.foldl step s

/-- Grade stored on submission `j` of assignment `i`, when those exist. -/
def gradeAt (s : EngineState) (i j : ℕ) : Option ℚ :=
  match s.asgs.get? i with
  | none => none
  | some a =>
      match a.subs.get? j with
      | none => none
      | some sub => sub.grade

/-- Submission row at assignment `i`, submission `j`, when those exist. -/
def subAt (s : EngineState) (i j : ℕ) : Option Sub :=
  match s.asgs.get? i with
  | none => none
  | some a => a.subs.get? j

/-- Common shape of both per-entry credit computations: resolve the
referenced question in the configuration dictionary and apply a per-question
scoring function; unknown or missing references score 0.  Used to prove
bounds shared by the two graders. -/
def lookupCredit {Q A : Type} (key : Q → ℕ) (akey : A → Option ℕ)
    (f : Q → A → ℚ) (questions : List Q) (ans : A) : ℚ :=
  match akey ans with
  | none => 0
  | some k =>
      match questions.find? (fun q => key q = k) with
      | none => 0
      | some q => f q ans

/-- The mcq scenario questions: two questions worth 50 points each. -/
def exQ1 : MCQQuestion := ⟨1, 50, {10, 11}⟩

/-- Second mcq scenario question. -/
def exQ2 : MCQQuestion := ⟨2, 50, {20}⟩

/-- The qa scenario question: 20 points, required ["recursion"], optional
["base case", "stack"], negative ["goto"], no acceptable answers. -/
def exQQ : QAQuestion :=
  ⟨1, 20, ["base case".data, "stack".data], ["recursion".data], ["goto".data], []⟩

/-- A 20-point qa question with all four keyword lists empty. -/
def exQE : QAQuestion := ⟨1, 20, [], [], [], []⟩

/-- The progress scenario enrollment: 4 content items all completed, one
assignment without submissions. -/
def exS6 : EngineState :=
  ⟨EStatus.active, 0, [true, true, true, true], [⟨60, 3, AType.qa, []⟩]⟩

/-- An active enrollment at 100 percent progress without a certificate. -/
def exDone : EngineState := ⟨EStatus.active, 0, [true], []⟩

/-- An enrollment with one ungraded submission on its only assignment and no
content. -/
def exUngraded : EngineState :=
  ⟨EStatus.active, 0, [], [⟨60, 3, AType.qa, [⟨1, SStatus.submitted, none⟩]⟩]⟩

/-- An enrollment with one still incomplete content item. -/
def exIncomplete : EngineState := ⟨EStatus.active, 0, [false], []⟩

/-- A completion recheck that fails (the recomputation hits a database
error). -/
def chkFail : EngineState → Except Unit EngineState := fun _ => Except.error ()

theorem rhe_nonneg {x : ℚ} (h : 0 ≤ x) : 0 ≤ rhe x := by
  have hf : (0 : ℤ) ≤ ⌊x⌋ := Int.floor_nonneg.mpr h
  unfold rhe
  dsimp only
  split
  · exact hf
  · split
    · omega
    · split <;> omega

theorem rhe_le {x : ℚ} {n : ℤ} (h : x ≤ (n : ℚ)) : rhe x ≤ n := by
  have hfl : ⌊x⌋ ≤ n := by
    have h2 : ⌊x⌋ ≤ ⌊(n : ℚ)⌋ := Int.floor_le_floor h
    simpa using h2
  unfold rhe
  dsimp only
  split
  · exact hfl
  · rename_i h1
    push_neg at h1
    have hx : (⌊x⌋ : ℚ) + 1/2 ≤ x := by
      have := Int.fract_nonneg x
      linarith [h1]
    have hstrict : ⌊x⌋ + 1 ≤ n := by
      by_contra hc
      push_neg at hc
      have hn : n ≤ ⌊x⌋ := by omega
      have hn2 : (n : ℚ) ≤ (⌊x⌋ : ℚ) := by exact_mod_cast hn
      linarith
    split
    · exact hstrict
    · split
      · exact hfl
      · exact hstrict

theorem pyRound2_nonneg {x : ℚ} (h : 0 ≤ x) : 0 ≤ pyRound2 x := by
  have h1 : 0 ≤ rhe (x * 100) := rhe_nonneg (by positivity)
  have h2 : (0 : ℚ) ≤ (rhe (x * 100) : ℚ) := by exact_mod_cast h1
  unfold pyRound2
  positivity

theorem pyRound2_le_100 {x : ℚ} (h : x ≤ 100) : pyRound2 x ≤ 100 := by
  have h1 : x * 100 ≤ ((10000 : ℤ) : ℚ) := by push_cast; linarith
  have h2 : rhe (x * 100) ≤ 10000 := rhe_le h1
  have h3 : ((rhe (x * 100)) : ℚ) ≤ 10000 := by exact_mod_cast h2
  unfold pyRound2
  linarith

theorem pyRound2_zero : pyRound2 0 = 0 := by
  norm_num [pyRound2, rhe]

theorem find?_key_of_nodup {Q : Type} (key : Q → ℕ) :
    ∀ {l : List Q} {q : Q}, (l.map key).Nodup → q ∈ l →
      l.find? (fun x => key x = key q) = some q := by
  intro l
  induction l with
  | nil => intro q _ hm; cases hm
  | cons a t ih =>
      intro q hn hm
      rw [List.map_cons, List.nodup_cons] at hn
      rcases List.mem_cons.mp hm with rfl | hmt
      · simp [List.find?]
      · have hne : ¬ (key a = key q) := by
          intro he
          exact hn.1 (he ▸ List.mem_map_of_mem key hmt)
        rw [List.find?_cons_of_neg _ (by simpa using hne)]
        exact ih hn.2 hmt

theorem find?_erase {Q : Type} [DecidableEq Q] (p : Q → Bool) {q : Q}
    (hq : p q = false) : ∀ l : List Q, (l.erase q).find? p = l.find? p := by
  intro l
  induction l with
  | nil => rfl
  | cons a t ih =>
      rw [List.erase_cons]
      by_cases haq : a = q
      · subst haq
        rw [if_pos (by simp)]
        rw [List.find?_cons_of_neg _ (by simp [hq])]
      · rw [if_neg (by simpa using haq)]
        cases hpa : p a with
        | true =>
            rw [List.find?_cons_of_pos _ (by simp [hpa]),
              List.find?_cons_of_pos _ (by simp [hpa])]
        | false =>
            rw [List.find?_cons_of_neg _ (by simp [hpa]),
              List.find?_cons_of_neg _ (by simp [hpa])]
            exact ih

theorem sum_map_erase {Q : Type} [DecidableEq Q] (f : Q → ℚ) {l : List Q}
    {q : Q} (hm : q ∈ l) :
    (l.map f).sum = f q + ((l.erase q).map f).sum := by
  have hperm : List.Perm l (q :: l.erase q) := List.perm_cons_erase hm
  have := (hperm.map f).sum_eq
  simpa using this

theorem mcqCredit_eq_lookup (qs : List MCQQuestion) (ans : MCQAnswer) :
    mcqCredit qs ans =
      lookupCredit (fun q => q.id) (fun a => a.question_id) mcqScore qs ans := by
  rcases hk : ans.question_id with _ | k
  · simp [mcqCredit, lookupCredit, hk]
  · rcases hfind : qs.find? (fun q => q.id = k) with _ | q <;>
      simp [mcqCredit, lookupCredit, findQ, hk, hfind]

theorem qaCredit_eq_lookup (qs : List QAQuestion) (ans : QAAnswer) :
    qaCredit qs ans =
      lookupCredit (fun q => q.id) (fun a => a.question_id) qaScore qs ans := by
  rcases hk : ans.question_id with _ | k
  · simp [qaCredit, lookupCredit, hk]
  · rcases hfind : qs.find? (fun q => q.id = k) with _ | q <;>
      simp [qaCredit, lookupCredit, findQA, hk, hfind]

theorem lookupCredit_nonneg {Q A : Type} (key : Q → ℕ) (akey : A → Option ℕ)
    (f : Q → A → ℚ) (qs : List Q) (hf : ∀ q ∈ qs, ∀ a : A, 0 ≤ f q a)
    (ans : A) : 0 ≤ lookupCredit key akey f qs ans := by
  rcases hk : akey ans with _ | k
  · simp [lookupCredit, hk]
  · rcases hfind : qs.find? (fun q => key q = k) with _ | q
    · simp [lookupCredit, hk, hfind]
    · have hq : q ∈ qs := List.mem_of_find?_eq_some hfind
      simpa [lookupCredit, hk, hfind] using hf q hq ans

theorem lookupCredit_sum_le {Q A : Type} [DecidableEq Q] (key : Q → ℕ)
    (akey : A → Option ℕ) (f : Q → A → ℚ) (pts : Q → ℚ) :
    ∀ (answers : List A) (qs : List Q),
      (qs.map key).Nodup →
      (answers.filterMap akey).Nodup →
      (∀ q ∈ qs, 0 ≤ pts q) →
      (∀ q ∈ qs, ∀ a : A, 0 ≤ f q a ∧ f q a ≤ pts q) →
      (answers.map (lookupCredit key akey f qs)).sum ≤ (qs.map pts).sum := by
  intro answers
  induction answers with
  | nil =>
      intro qs _ _ hp _
      simp only [List.map_nil, List.sum_nil]
      exact List.sum_nonneg (fun x hx => by
        rcases List.mem_map.mp hx with ⟨q, hq, rfl⟩
        exact hp q hq)
  | cons ans rest ih =>
      intro qs hqn han hp hf
      rw [List.map_cons, List.sum_cons]
      rcases hk : akey ans with _ | k
      · have h0 : lookupCredit key akey f qs ans = 0 := by simp [lookupCredit, hk]
        have han' : (rest.filterMap akey).Nodup := by
          simpa [List.filterMap_cons, hk] using han
        rw [h0, zero_add]
        exact ih qs hqn han' hp hf
      · have hcons : (k :: rest.filterMap akey).Nodup := by
          simpa [List.filterMap_cons, hk] using han
        have han' : (rest.filterMap akey).Nodup := (List.nodup_cons.mp hcons).2
        rcases hfind : qs.find? (fun q => key q = k) with _ | q
        · have h0 : lookupCredit key akey f qs ans = 0 := by
            simp [lookupCredit, hk, hfind]
          rw [h0, zero_add]
          exact ih qs hqn han' hp hf
        · have hq : q ∈ qs := List.mem_of_find?_eq_some hfind
          have hkey : key q = k := by
            have := List.find?_some hfind
            simpa using this
          have hcred : lookupCredit key akey f qs ans = f q ans := by
            simp [lookupCredit, hk, hfind]
          have hkn : k ∉ rest.filterMap akey := (List.nodup_cons.mp hcons).1
          have hrest : ∀ a ∈ rest,
              lookupCredit key akey f qs a = lookupCredit key akey f (qs.erase q) a := by
            intro a ha
            rcases hk' : akey a with _ | k'
            · simp [lookupCredit, hk']
            · have hkk : k' ≠ k := by
                intro he
                subst he
                exact hkn (List.mem_filterMap.mpr ⟨a, ha, hk'⟩)
              have hpq : (fun q2 : Q => decide (key q2 = k')) q = false := by
                simp only [hkey]
                exact decide_eq_false (fun h => hkk h.symm)
              simp only [lookupCredit, hk']
              rw [find?_erase (fun q2 : Q => decide (key q2 = k')) hpq qs]
          have hsum : (rest.map (lookupCredit key akey f qs)).sum
              = (rest.map (lookupCredit key akey f (qs.erase q))).sum := by
            rw [List.map_congr_left hrest]
          have hqn' : ((qs.erase q).map key).Nodup :=
            hqn.sublist ((qs.erase_sublist q).map key)
          have hp' : ∀ q2 ∈ qs.erase q, 0 ≤ pts q2 :=
            fun q2 h2 => hp q2 (List.mem_of_mem_erase h2)
          have hf' : ∀ q2 ∈ qs.erase q, ∀ a : A, 0 ≤ f q2 a ∧ f q2 a ≤ pts q2 :=
            fun q2 h2 => hf q2 (List.mem_of_mem_erase h2)
          have hle : (rest.map (lookupCredit key akey f qs)).sum
              ≤ ((qs.erase q).map pts).sum := by
            rw [hsum]
            exact ih (qs.erase q) hqn' han' hp' hf'
          rw [hcred, sum_map_erase pts hq]
          exact add_le_add (hf q hq ans).2 hle

theorem mcqScore_bounds (q : MCQQuestion) (a : MCQAnswer) (h : 0 ≤ q.points) :
    0 ≤ mcqScore q a ∧ mcqScore q a ≤ q.points := by
  unfold mcqScore
  constructor <;> split <;> simp [h]

theorem qaScore_bounds (q : QAQuestion) (a : QAAnswer) (h : 0 ≤ q.points) :
    0 ≤ qaScore q a ∧ qaScore q a ≤ q.points := by
  unfold qaScore
  dsimp only
  split
  · exact ⟨le_refl 0, h⟩
  · split
    · exact ⟨h, le_refl _⟩
    · split
      · exact ⟨le_refl 0, h⟩
      · exact ⟨le_max_left 0 _, max_le h (min_le_left _ _)⟩

theorem mcqEarned_nonneg (qs : List MCQQuestion) (answers : List MCQAnswer)
    (hp : ∀ q ∈ qs, 0 ≤ q.points) : 0 ≤ mcqEarned qs answers := by
  unfold mcqEarned
  refine List.sum_nonneg (fun x hx => ?hx)
  rcases List.mem_map.mp hx with ⟨a, _, rfl⟩
  rw [mcqCredit_eq_lookup]
  exact lookupCredit_nonneg _ _ _ qs
    (fun q hq a2 => (mcqScore_bounds q a2 (hp q hq)).1) a

theorem qaEarned_nonneg (qs : List QAQuestion) (answers : List QAAnswer)
    (hp : ∀ q ∈ qs, 0 ≤ q.points) : 0 ≤ qaEarned qs answers := by
  unfold qaEarned
  refine List.sum_nonneg (fun x hx => ?hx)
  rcases List.mem_map.mp hx with ⟨a, _, rfl⟩
  rw [qaCredit_eq_lookup]
  exact lookupCredit_nonneg _ _ _ qs
    (fun q hq a2 => (qaScore_bounds q a2 (hp q hq)).1) a

theorem mcqEarned_le_total (qs : List MCQQuestion) (answers : List MCQAnswer)
    (hqn : (qs.map (·.id)).Nodup)
    (han : (answers.filterMap (·.question_id)).Nodup)
    (hp : ∀ q ∈ qs, 0 ≤ q.points) : mcqEarned qs answers ≤ mcqTotal qs := by
  unfold mcqEarned mcqTotal
  rw [List.map_congr_left (fun a _ => mcqCredit_eq_lookup qs a)]
  exact lookupCredit_sum_le (fun q => q.id) (fun a => a.question_id) mcqScore
    (fun q => q.points) answers qs hqn han hp
    (fun q hq a => mcqScore_bounds q a (hp q hq))

theorem qaEarned_le_total (qs : List QAQuestion) (answers : List QAAnswer)
    (hqn : (qs.map (·.id)).Nodup)
    (han : (answers.filterMap (·.question_id)).Nodup)
    (hp : ∀ q ∈ qs, 0 ≤ q.points) : qaEarned qs answers ≤ qaTotal qs := by
  unfold qaEarned qaTotal
  rw [List.map_congr_left (fun a _ => qaCredit_eq_lookup qs a)]
  exact lookupCredit_sum_le (fun q => q.id) (fun a => a.question_id) qaScore
    (fun q => q.points) answers qs hqn han hp
    (fun q hq a => qaScore_bounds q a (hp q hq))

theorem points_all_zero {Q : Type} (pts : Q → ℚ) {l : List Q}
    (hp : ∀ q ∈ l, 0 ≤ pts q) (h0 : (l.map pts).sum = 0) :
    ∀ q ∈ l, pts q = 0 := by
  intro q hq
  have h1 : pts q ≤ (l.map pts).sum := by
    refine List.single_le_sum (fun x hx => ?hx) _ (List.mem_map_of_mem pts hq)
    rcases List.mem_map.mp hx with ⟨y, hy, rfl⟩
    exact hp y hy
  have h2 := hp q hq
  linarith

theorem mcqEarned_eq_zero (qs : List MCQQuestion) (answers : List MCQAnswer)
    (hp : ∀ q ∈ qs, 0 ≤ q.points) (h0 : mcqTotal qs = 0) :
    mcqEarned qs answers = 0 := by
  have hz : ∀ q ∈ qs, q.points = 0 :=
    points_all_zero (fun q : MCQQuestion => q.points) hp h0
  unfold mcqEarned
  refine List.sum_eq_zero (fun x hx => ?hx)
  rcases List.mem_map.mp hx with ⟨a, _, rfl⟩
  rw [mcqCredit_eq_lookup]
  rcases hk : a.question_id with _ | k
  · simp [lookupCredit, hk]
  · rcases hfind : qs.find? (fun q => q.id = k) with _ | q
    · simp [lookupCredit, hk, hfind]
    · have hq : q ∈ qs := List.mem_of_find?_eq_some hfind
      simp [lookupCredit, hk, hfind, mcqScore, hz q hq]

theorem qaEarned_eq_zero (qs : List QAQuestion) (answers : List QAAnswer)
    (hp : ∀ q ∈ qs, 0 ≤ q.points) (h0 : qaTotal qs = 0) :
    qaEarned qs answers = 0 := by
  have hz : ∀ q ∈ qs, q.points = 0 :=
    points_all_zero (fun q : QAQuestion => q.points) hp h0
  unfold qaEarned
  refine List.sum_eq_zero (fun x hx => ?hx)
  rcases List.mem_map.mp hx with ⟨a, _, rfl⟩
  rw [qaCredit_eq_lookup]
  rcases hk : a.question_id with _ | k
  · simp [lookupCredit, hk]
  · rcases hfind : qs.find? (fun q => q.id = k) with _ | q
    · simp [lookupCredit, hk, hfind]
    · have hq : q ∈ qs := List.mem_of_find?_eq_some hfind
      simp [lookupCredit, hk, hfind, qaScore, hz q hq]

theorem mcqGrade_zero_denom (qs : List MCQQuestion) (answers : List MCQAnswer)
    (hp : ∀ q ∈ qs, 0 ≤ q.points) (h0 : mcqTotal qs = 0) :
    mcqGrade qs answers = 0 := by
  unfold mcqGrade orOne
  rw [if_pos h0, mcqEarned_eq_zero qs answers hp h0]
  simpa using pyRound2_zero

theorem qaGrade_zero_denom (qs : List QAQuestion) (answers : List QAAnswer)
    (hp : ∀ q ∈ qs, 0 ≤ q.points) (h0 : qaTotal qs = 0) :
    qaGrade qs answers = 0 := by
  unfold qaGrade orOne
  rw [if_pos h0, qaEarned_eq_zero qs answers hp h0]
  simpa using pyRound2_zero

theorem grade_formula_bounds {earned total : ℚ} (h1 : 0 ≤ earned)
    (h2 : earned ≤ total) (h0 : total ≠ 0) :
    0 ≤ pyRound2 (earned / total * 100) ∧ pyRound2 (earned / total * 100) ≤ 100 := by
  have hpos : 0 < total := lt_of_le_of_ne (le_trans h1 h2) (Ne.symm h0)
  have hdiv1 : earned / total ≤ 1 := (div_le_one hpos).mpr h2
  have hdiv0 : 0 ≤ earned / total := div_nonneg h1 (le_of_lt hpos)
  constructor
  · exact pyRound2_nonneg (by nlinarith)
  · exact pyRound2_le_100 (by nlinarith)

theorem mcqGrade_bounds (qs : List MCQQuestion) (answers : List MCQAnswer)
    (hqn : (qs.map (·.id)).Nodup)
    (han : (answers.filterMap (·.question_id)).Nodup)
    (hp : ∀ q ∈ qs, 0 ≤ q.points) :
    0 ≤ mcqGrade qs answers ∧ mcqGrade qs answers ≤ 100 := by
  by_cases h0 : mcqTotal qs = 0
  · rw [mcqGrade_zero_denom qs answers hp h0]
    norm_num
  · have h1 := mcqEarned_nonneg qs answers hp
    have h2 := mcqEarned_le_total qs answers hqn han hp
    have := grade_formula_bounds h1 h2 h0
    unfold mcqGrade orOne
    rw [if_neg h0]
    exact this

theorem qaGrade_bounds (qs : List QAQuestion) (answers : List QAAnswer)
    (hqn : (qs.map (·.id)).Nodup)
    (han : (answers.filterMap (·.question_id)).Nodup)
    (hp : ∀ q ∈ qs, 0 ≤ q.points) :
    0 ≤ qaGrade qs answers ∧ qaGrade qs answers ≤ 100 := by
  by_cases h0 : qaTotal qs = 0
  · rw [qaGrade_zero_denom qs answers hp h0]
    norm_num
  · have h1 := qaEarned_nonneg qs answers hp
    have h2 := qaEarned_le_total qs answers hqn han hp
    have := grade_formula_bounds h1 h2 h0
    unfold qaGrade orOne
    rw [if_neg h0]
    exact this

theorem betterGrade_fold (pg : ℚ) :
    ∀ (l : List Sub) (a : ℚ), (∀ t ∈ l, t.grade ≠ none) →
      ((∃ b : ℚ, l.foldl (fun acc t => betterGrade acc t.grade) (some a) = some b ∧ pg ≤ b)
        ↔ (pg ≤ a ∨ ∃ t ∈ l, ∃ g, t.grade = some g ∧ pg ≤ g)) := by
  intro l
  induction l with
  | nil =>
      intro a _
      simp
  | cons t rest ih =>
      intro a hl
      rcases ht : t.grade with _ | g
      · exact absurd ht (hl t (List.mem_cons_self t rest))
      · rw [List.foldl_cons]
        have hbg : betterGrade (some a) t.grade = some (max a g) := by
          rw [ht]
          rfl
        rw [hbg, ih (max a g) (fun t2 h2 => hl t2 (List.mem_cons_of_mem t h2))]
        constructor
        · rintro (hmax | ⟨t2, h2, g2, hg2, hpg⟩)
          · rcases le_max_iff.mp hmax with h | h
            · exact Or.inl h
            · exact Or.inr ⟨t, List.mem_cons_self t rest, g, ht, h⟩
          · exact Or.inr ⟨t2, List.mem_cons_of_mem t h2, g2, hg2, hpg⟩
        · rintro (ha | ⟨t2, h2, g2, hg2, hpg⟩)
          · exact Or.inl (le_max_iff.mpr (Or.inl ha))
          · rcases List.mem_cons.mp h2 with rfl | h2t
            · rw [ht] at hg2
              injection hg2 with hgg
              subst hgg
              exact Or.inl (le_max_iff.mpr (Or.inr hpg))
            · exact Or.inr ⟨t2, h2t, g2, hg2, hpg⟩

theorem passedCheck_iff (pg : ℚ) (existing : List Sub)
    (hg : ∀ s ∈ existing, s.status = SStatus.graded → s.grade ≠ none) :
    passedCheck pg existing = true ↔
      ∃ s ∈ existing, s.status = SStatus.graded ∧ ∃ g, s.grade = some g ∧ pg ≤ g := by
  unfold passedCheck bestGradedGrade
  rcases hfil : existing.filter (fun s => s.status = SStatus.graded) with _ | ⟨s0, rest⟩
  · rw [hfil]
    dsimp only
    constructor
    · intro h
      exact Bool.noConfusion h
    · rintro ⟨s, hs, hgr, g, hgsome, hpg⟩
      have hmemf : s ∈ existing.filter (fun s2 => s2.status = SStatus.graded) :=
        List.mem_filter.mpr ⟨hs, by simp [hgr]⟩
      rw [hfil] at hmemf
      cases hmemf
  · have hfilmem : ∀ s, s ∈ s0 :: rest ↔ s ∈ existing ∧ s.status = SStatus.graded := by
      intro s
      rw [← hfil, List.mem_filter]
      simp
    have hmem : ∀ t ∈ s0 :: rest, t.grade ≠ none := by
      intro t htm
      have h3 := (hfilmem t).mp htm
      exact hg t h3.1 h3.2
    rcases hs0 : s0.grade with _ | a
    · exact absurd hs0 (hmem s0 (List.mem_cons_self s0 rest))
    have hfold := betterGrade_fold pg rest a
      (fun t2 h2 => hmem t2 (List.mem_cons_of_mem s0 h2))
    rw [hfil]
    dsimp only
    rw [hs0]
    rcases hres : rest.foldl (fun acc t => betterGrade acc t.grade) (some a) with _ | b
    · rw [hres]
      dsimp only
      have hrhs : ¬ (pg ≤ a ∨ ∃ t ∈ rest, ∃ g, t.grade = some g ∧ pg ≤ g) := by
        intro hcontr
        rcases hfold.mpr hcontr with ⟨b, hb, _⟩
        rw [hres] at hb
        cases hb
      constructor
      · intro h
        exact Bool.noConfusion h
      · rintro ⟨s, hs, hgr, g, hgsome, hpg⟩
        have hsmem := (hfilmem s).mpr ⟨hs, hgr⟩
        rcases List.mem_cons.mp hsmem with rfl | hsr
        · rw [hs0] at hgsome
          injection hgsome with hga
          exact absurd (Or.inl (hga ▸ hpg)) hrhs
        · exact absurd (Or.inr ⟨s, hsr, g, hgsome, hpg⟩) hrhs
    · rw [hres]
      dsimp only
      have hiff : pg ≤ b ↔ (pg ≤ a ∨ ∃ t ∈ rest, ∃ g, t.grade = some g ∧ pg ≤ g) := by
        constructor
        · intro h
          exact hfold.mp ⟨b, hres, h⟩
        · intro h
          rcases hfold.mpr h with ⟨b2, hb2, hle⟩
          rw [hres] at hb2
          injection hb2 with hbb
          exact hbb ▸ hle
      rw [decide_eq_true_eq, hiff]
      constructor
      · rintro (ha | ⟨t2, h2, g2, hg2, hpg⟩)
        · have hm0 := (hfilmem s0).mp (List.mem_cons_self s0 rest)
          exact ⟨s0, hm0.1, hm0.2, a, hs0, ha⟩
        · have := (hfilmem t2).mp (List.mem_cons_of_mem s0 h2)
          exact ⟨t2, this.1, this.2, g2, hg2, hpg⟩
      · rintro ⟨s, hs, hgr, g, hgsome, hpg⟩
        have hsmem := (hfilmem s).mpr ⟨hs, hgr⟩
        rcases List.mem_cons.mp hsmem with rfl | hsr
        · rw [hs0] at hgsome
          injection hgsome with hga
          exact Or.inl (hga ▸ hpg)
        · exact Or.inr ⟨s, hsr, g, hgsome, hpg⟩

/-- C1: for every attempt request by an enrolled student, the gate of
`perform_create` is evaluated in order over the prior submissions of the
(enrollment, assignment) pair: any graded prior submission with grade at or
above the passing grade rejects the attempt as already passed; otherwise a
prior-submission count at or above `max_attempts` rejects it as no attempts
left; otherwise, for a qa assignment with some prior submission still
ungraded, it is rejected as pending grading; otherwise a new submission is
allowed with `attempt_number = count(prior) + 1`.  (Graded submissions carry
a grade in this system: both the auto-grader and the manual grading endpoint
store one, hence the hypothesis on `existing`.) -/
theorem gate_evaluation_order (pg : ℚ) (ma : ℕ) (ty : AType)
    (existing : List Sub)
    (hg : ∀ s ∈ existing, s.status = SStatus.graded → s.grade ≠ none) :
    ((∃ s ∈ existing, s.status = SStatus.graded ∧ ∃ g, s.grade = some g ∧ pg ≤ g) →
        submissionGate pg ma ty existing = GateResult.alreadyPassed)
    ∧ (¬ (∃ s ∈ existing, s.status = SStatus.graded ∧ ∃ g, s.grade = some g ∧ pg ≤ g) →
        ma ≤ existing.length →
        submissionGate pg ma ty existing = GateResult.noAttemptsLeft)
    ∧ (¬ (∃ s ∈ existing, s.status = SStatus.graded ∧ ∃ g, s.grade = some g ∧ pg ≤ g) →
        existing.length < ma → ty = AType.qa →
        (∃ s ∈ existing, s.status = SStatus.submitted) →
        submissionGate pg ma ty existing = GateResult.pendingGrading)
    ∧ (¬ (∃ s ∈ existing, s.status = SStatus.graded ∧ ∃ g, s.grade = some g ∧ pg ≤ g) →
        existing.length < ma →
        ¬ (ty = AType.qa ∧ ∃ s ∈ existing, s.status = SStatus.submitted) →
        submissionGate pg ma ty existing = GateResult.allow (existing.length + 1)) := by
  have hpc := passedCheck_iff pg existing hg
  refine ⟨?h1, ?h2, ?h3, ?h4⟩
  · intro hex
    unfold submissionGate
    rw [if_pos (hpc.mpr hex)]
  · intro hnex hma
    have hpcf : passedCheck pg existing = false := by
      cases h : passedCheck pg existing
      · rfl
      · exact absurd (hpc.mp h) hnex
    unfold submissionGate
    rw [hpcf]
    simp only [Bool.false_eq_true, if_false]
    rw [if_pos hma]
  · intro hnex hlen hty hsub
    have hpcf : passedCheck pg existing = false := by
      cases h : passedCheck pg existing
      · rfl
      · exact absurd (hpc.mp h) hnex
    unfold submissionGate
    rw [hpcf]
    simp only [Bool.false_eq_true, if_false]
    rw [if_neg (by omega)]
    rcases hsub with ⟨s, hs, hst⟩
    rw [if_pos]
    simp only [Bool.and_eq_true, decide_eq_true_eq]
    exact ⟨hty, List.any_eq_true.mpr ⟨s, hs, by simp [hst]⟩⟩
  · intro hnex hlen hnpend
    have hpcf : passedCheck pg existing = false := by
      cases h : passedCheck pg existing
      · rfl
      · exact absurd (hpc.mp h) hnex
    unfold submissionGate
    rw [hpcf]
    simp only [Bool.false_eq_true, if_false]
    rw [if_neg (by omega)]
    rw [if_neg]
    simp only [Bool.and_eq_true, decide_eq_true_eq, List.any_eq_true, not_and]
    intro hty hany
    rcases hany with ⟨s, hs, hst⟩
    exact hnpend ⟨hty, s, hs, by simpa using hst⟩

/-- Witness for C1 on the spec scenario: passing grade 60, max 3 attempts,
two failing graded attempts (40 and 50) still allow a third attempt numbered
3, and after a third failing attempt the gate rejects with no attempts
left. -/
theorem gate_evaluation_order_witness :
    submissionGate 60 3 AType.qa
        [⟨1, SStatus.graded, some 40⟩, ⟨2, SStatus.graded, some 50⟩]
      = GateResult.allow 3
    ∧ submissionGate 60 3 AType.qa
        [⟨1, SStatus.graded, some 40⟩, ⟨2, SStatus.graded, some 50⟩,
          ⟨3, SStatus.graded, some 55⟩]
      = GateResult.noAttemptsLeft := by
  constructor
  · have h := (gate_evaluation_order 60 3 AType.qa
        [⟨1, SStatus.graded, some 40⟩, ⟨2, SStatus.graded, some 50⟩]
        (by intro s hs _; fin_cases hs <;> simp)).2.2.2
    apply h
    · rintro ⟨s, hs, _, g, hgsome, hge⟩
      fin_cases hs <;> simp_all <;> linarith
    · simp
    · rintro ⟨_, s, hs, hst⟩
      fin_cases hs <;> simp_all
  · have h := (gate_evaluation_order 60 3 AType.qa
        [⟨1, SStatus.graded, some 40⟩, ⟨2, SStatus.graded, some 50⟩,
          ⟨3, SStatus.graded, some 55⟩]
        (by intro s hs _; fin_cases hs <;> simp)).2.1
    apply h
    · rintro ⟨s, hs, _, g, hgsome, hge⟩
      fin_cases hs <;> simp_all <;> linarith
    · simp

theorem check_completion_fst_fields (s : EngineState) :
    (check_completion s).1.contents = s.contents
    ∧ (check_completion s).1.asgs = s.asgs := by
  unfold check_completion
  dsimp only
  split
  · split <;> simp
  · simp

theorem check_completion_completed (s : EngineState)
    (h : s.status = EStatus.completed) : check_completion s = (s, false) := by
  unfold check_completion
  dsimp only
  rw [if_neg]
  rintro ⟨_, hne⟩
  exact hne h

theorem grade_submission_step_status (s : EngineState) (i j : ℕ) (g : ℚ) :
    (grade_submission_step s i j g).status = s.status := rfl

theorem mark_content_step_status (s : EngineState) (idx : ℕ) :
    (mark_content_step s idx).status = s.status := rfl

theorem step_preserves_completed (s : EngineState) (op : Op)
    (h : s.status = EStatus.completed) : (step s op).status = EStatus.completed := by
  cases op with
  | attempt i g =>
      unfold step
      dsimp only
      rcases hget : s.asgs.get? i with _ | a
      · simpa [hget] using h
      · rcases hgate : submissionGate a.passing_grade a.max_attempts a.assignment_type a.subs with
          _ | _ | _ | n <;> simpa [hget, hgate] using h
  | gradeManual i j g =>
      have hst : (grade_submission_step s i j g).status = EStatus.completed := h
      unfold step grade_submission
      dsimp only
      rw [check_completion_completed _ hst]
      exact hst
  | markContent idx =>
      unfold step mark_as_completed
      dsimp only
      rcases hget : s.contents.get? idx with _ | c
      · simpa [hget] using h
      · simp only [hget]
        by_cases hc : c = true
        · rw [if_pos hc]
          exact h
        · rw [if_neg hc]
          have hst : (mark_content_step s idx).status = EStatus.completed := h
          rw [check_completion_completed _ hst]
          exact hst
  | refresh =>
      unfold step
      dsimp only
      rw [check_completion_completed _ h]
      exact h

theorem run_preserves_completed (ops : List Op) :
    ∀ s : EngineState, s.status = EStatus.completed →
      (run s ops).status = EStatus.completed := by
  induction ops with
  | nil => intro s h; exact h
  | cons op rest ih =>
      intro s h
      exact ih (step s op) (step_preserves_completed s op h)

/-- C4: on every invocation of the completion detector, if the recomputed
progress is at least 100 and the enrollment is not yet completed (hence, in
any reachable state, no certificate exists yet), the status is set to
completed, the certificate is issued and the call returns true; if the
enrollment is already completed the call changes nothing and returns false
regardless of the recomputed percent; and no engine event ever moves a
completed enrollment back to active. -/
theorem completion_detector_spec :
    (∀ s : EngineState, 100 ≤ calculate_progress s → s.status ≠ EStatus.completed →
        s.certCount = 0 →
        (check_completion s).1.status = EStatus.completed
        ∧ (check_completion s).1.certCount = 1
        ∧ (check_completion s).2 = true)
    ∧ (∀ s : EngineState, s.status = EStatus.completed →
        check_completion s = (s, false))
    ∧ (∀ (s : EngineState) (ops : List Op), s.status = EStatus.completed →
        (run s ops).status = EStatus.completed) := by
  refine ⟨?h1, ?h2, ?h3⟩
  · intro s hpr hst hc
    unfold check_completion
    dsimp only
    rw [if_pos ⟨hpr, hst⟩, if_pos hc]
    exact ⟨rfl, rfl, rfl⟩
  · intro s h
    exact check_completion_completed s h
  · intro s ops h
    exact run_preserves_completed ops s h

/-- Witness for C4: a fully completed active enrollment (one completed
content item) transitions, issues the certificate and returns true; an
already completed enrollment with unfinished content is left unchanged with
result false, and stays completed across further events. -/
theorem completion_detector_spec_witness :
    ((check_completion exDone).1.status = EStatus.completed
      ∧ (check_completion exDone).1.certCount = 1
      ∧ (check_completion exDone).2 = true)
    ∧ check_completion ⟨EStatus.completed, 1, [false], []⟩
        = (⟨EStatus.completed, 1, [false], []⟩, false)
    ∧ (run ⟨EStatus.completed, 1, [false], []⟩ [Op.markContent 0, Op.refresh]).status
        = EStatus.completed := by
  refine ⟨?w1, ?w2, ?w3⟩
  · refine completion_detector_spec.1 exDone ?hp (by simp [exDone]) rfl
    norm_num [calculate_progress, exDone, pyRound1, rhe]
  · exact completion_detector_spec.2.1 _ rfl
  · exact completion_detector_spec.2.2 _ _ rfl

/-- C6: progress is 0 when the course has no content and no assignments,
and otherwise equals round1 of 100 times (completed content + passed
assignments) over (total content + total assignments), where an assignment
is passed iff it has a graded submission with grade at or above its own
passing grade; on the scenario state (4 completed content items, one
unattempted assignment) progress is 80.0 and completion is not triggered. -/
theorem progress_formula :
    (∀ s : EngineState, s.contents.length + s.asgs.length = 0 →
        calculate_progress s = 0)
    ∧ (∀ s : EngineState, s.contents.length + s.asgs.length ≠ 0 →
        calculate_progress s =
          pyRound1 (100 *
            (((s.contents.filter id).length + (s.asgs.filter asgPassed).length : ℕ) : ℚ)
            / ((s.contents.length + s.asgs.length : ℕ) : ℚ)))
    ∧ (∀ a : Asg, asgPassed a = true ↔
        ∃ sub ∈ a.subs, sub.status = SStatus.graded
          ∧ ∃ g, sub.grade = some g ∧ a.passing_grade ≤ g)
    ∧ calculate_progress exS6 = 80
    ∧ check_completion exS6 = (exS6, false) := by
  refine ⟨?h0, ?h1, ?h2, ?h3, ?h4⟩
  · intro s h
    unfold calculate_progress
    dsimp only
    rw [if_pos h]
  · intro s h
    unfold calculate_progress
    dsimp only
    rw [if_neg h]
    refine congrArg pyRound1 ?harg
    push_cast
    ring
  · intro a
    unfold asgPassed
    rw [List.any_eq_true]
    constructor
    · rintro ⟨sub, hmem, hcond⟩
      rcases hgr : sub.grade with _ | g
      · rw [hgr] at hcond
        simp at hcond
      · rw [hgr] at hcond
        simp only [Bool.and_eq_true, decide_eq_true_eq] at hcond
        exact ⟨sub, hmem, hcond.1, g, hgr, hcond.2⟩
    · rintro ⟨sub, hmem, hst, g, hgr, hge⟩
      refine ⟨sub, hmem, ?hc⟩
      rw [hgr]
      simp [hst, hge]
  · norm_num [calculate_progress, exS6, asgPassed, pyRound1, rhe]
  · have hpr : calculate_progress exS6 = 80 := by
      norm_num [calculate_progress, exS6, asgPassed, pyRound1, rhe]
    unfold check_completion
    dsimp only
    rw [if_neg]
    rintro ⟨hge, _⟩
    rw [hpr] at hge
    norm_num at hge

/-- Witness for C6: the empty course has progress 0, and an assignment with
a graded submission at grade 75 against passing grade 60 counts as
passed. -/
theorem progress_formula_witness :
    calculate_progress ⟨EStatus.active, 0, [], []⟩ = 0
    ∧ asgPassed ⟨60, 3, AType.qa, [⟨1, SStatus.graded, some 75⟩]⟩ = true := by
  constructor
  · exact progress_formula.1 ⟨EStatus.active, 0, [], []⟩ rfl
  · exact (progress_formula.2.2.1 ⟨60, 3, AType.qa, [⟨1, SStatus.graded, some 75⟩]⟩).mpr
      ⟨⟨1, SStatus.graded, some 75⟩, by simp, rfl, 75, rfl, by norm_num⟩

/-- C2: in mcq auto-grading, a question with points p and correct-option set
C earns exactly p when the selected set S equals C and 0 when S differs from
C (any proper subset or superset included); the stored grade is 100 times
earned over the sum of all mcq question points rounded to 2 decimals, the
zero-denominator configuration grading as 0; on the scenario (two 50-point
questions, the correct set chosen for question 1 only) the grade is
50.00. -/
theorem mcq_grading_spec (questions : List MCQQuestion) (answers : List MCQAnswer)
    (hqn : (questions.map (fun q => q.id)).Nodup) :
    (∀ q ∈ questions, ∀ ans ∈ answers, ans.question_id = some q.id →
        (ans.selected = q.correct → mcqCredit questions ans = q.points)
        ∧ (ans.selected ≠ q.correct → mcqCredit questions ans = 0))
    ∧ (mcqTotal questions ≠ 0 →
        mcqGrade questions answers =
          pyRound2 (100 * mcqEarned questions answers / mcqTotal questions))
    ∧ ((∀ q ∈ questions, 0 ≤ q.points) → mcqTotal questions = 0 →
        mcqGrade questions answers = 0)
    ∧ mcqGrade [exQ1, exQ2] [⟨some 1, {10, 11}⟩, ⟨some 2, {21}⟩] = 50 := by
  refine ⟨?h1, ?h2, ?h3, ?h4⟩
  · intro q hq ans _ hk
    have hfind : findQ questions q.id = some q := by
      unfold findQ
      exact find?_key_of_nodup (fun q2 => q2.id) hqn hq
    constructor
    · intro hsel
      simp [mcqCredit, hk, hfind, mcqScore, hsel]
    · intro hsel
      simp [mcqCredit, hk, hfind, mcqScore, hsel]
  · intro h0
    unfold mcqGrade orOne
    rw [if_neg h0]
    refine congrArg pyRound2 ?harg
    ring
  · intro hp h0
    exact mcqGrade_zero_denom questions answers hp h0
  · norm_num [mcqGrade, mcqEarned, mcqCredit, findQ, mcqTotal, orOne, pyRound2, rhe,
      exQ1, exQ2, List.find?, mcqScore]

/-- Witness for C2: on the scenario configuration, the exact correct set on
question 1 earns its 50 points, the wrong singleton on question 2 earns 0,
and the stored grade is 50. -/
theorem mcq_grading_spec_witness :
    mcqCredit [exQ1, exQ2] ⟨some 1, {10, 11}⟩ = 50
    ∧ mcqCredit [exQ1, exQ2] ⟨some 2, {21}⟩ = 0
    ∧ mcqGrade [exQ1, exQ2] [⟨some 1, {10, 11}⟩, ⟨some 2, {21}⟩] = 50 := by
  have h := mcq_grading_spec [exQ1, exQ2] [⟨some 1, {10, 11}⟩, ⟨some 2, {21}⟩]
    (by decide)
  refine ⟨?w1, ?w2, ?w3⟩
  · have hc := (h.1 exQ1 (by simp) ⟨some 1, {10, 11}⟩ (by simp) rfl).1 (by decide)
    simpa [exQ1] using hc
  · exact (h.1 exQ2 (by simp [exQ2]) ⟨some 2, {21}⟩ (by simp) rfl).2 (by decide)
  · exact h.2.2.2

/-- C10: in qa auto-grading, a question with positive points whose required,
optional, negative and acceptable lists are all empty gives full points to
any answers entry referencing it, even with an empty or missing text answer;
a submission with no entry for that question earns 0 for it. -/
theorem qa_empty_config_credit (q : QAQuestion)
    (hk : q.keywords = []) (hr : q.required_keywords = [])
    (hn : q.negative_keywords = []) (ha : q.acceptable_answers = [])
    (hp : 0 < q.points) :
    (∀ ans : QAAnswer, ans.question_id = some q.id →
        qaCredit [q] ans = q.points)
    ∧ (∀ answers : List QAAnswer, (∀ ans ∈ answers, ans.question_id ≠ some q.id) →
        qaEarned [q] answers = 0) := by
  constructor
  · intro ans hid
    have hfind : findQA [q] q.id = some q := by
      simp [findQA, List.find?]
    have hm : qaMatch q ans.text_answer =
        ⟨false, false, false, true, 0, 0, false, 0⟩ := by
      simp [qaMatch, hk, hr, hn, ha, normList, dedupFirst]
    simp only [qaCredit, hid, hfind]
    unfold qaScore
    rw [hm]
    simp only [Bool.false_and, Bool.and_false, if_neg (not_le.mpr hp)]
    norm_num
    exact le_of_lt hp
  · intro answers hnone
    unfold qaEarned
    refine List.sum_eq_zero (fun x hx => ?hx)
    rcases List.mem_map.mp hx with ⟨a, hamem, rfl⟩
    rcases hid : a.question_id with _ | k
    · simp [qaCredit, hid]
    · have hkk : k ≠ q.id := by
        intro he
        exact hnone a hamem (by rw [hid, he])
      have hfind : findQA [q] k = none := by
        simp [findQA, List.find?, Ne.symm hkk]
      simp [qaCredit, hid, hfind]

/-- Witness for C10: the 20-point question with empty keyword configuration
earns 20 from an entry with a missing text answer, and an empty answers list
earns 0. -/
theorem qa_empty_config_credit_witness :
    qaCredit [exQE] ⟨some 1, none⟩ = 20
    ∧ qaEarned [exQE] [] = 0 := by
  have h := qa_empty_config_credit exQE rfl rfl rfl rfl (by norm_num [exQE])
  constructor
  · have hc := h.1 ⟨some 1, none⟩ rfl
    simpa [exQE] using hc
  · exact h.2 [] (by intro ans hmem; cases hmem)

theorem qaMatch_accept_iff (q : QAQuestion) (ta : Option Str) :
    ((qaMatch q ta).acceptNonempty && (qaMatch q ta).acceptHit) = true
      ↔ pyStrip (pyLower (ta.getD [])) ∈ normList q.acceptable_answers := by
  simp only [qaMatch, Bool.and_eq_true, List.contains, Bool.not_eq_true,
    List.isEmpty_eq_false, ne_eq]
  constructor
  · rintro ⟨_, hcont⟩
    exact List.elem_iff.mp hcont
  · intro hmem
    exact ⟨by simp [List.ne_nil_of_mem hmem], List.elem_iff.mpr hmem⟩

theorem qaMatch_required_iff (q : QAQuestion) (ta : Option Str) :
    ((qaMatch q ta).reqNonempty && !(qaMatch q ta).reqAllPresent) = true
      ↔ ∃ r ∈ normList q.required_keywords,
          isSubstr r (pyLower (ta.getD [])) = false := by
  simp only [qaMatch, Bool.and_eq_true, Bool.not_eq_true, List.isEmpty_eq_false,
    ne_eq]
  constructor
  · rintro ⟨_, hnall⟩
    by_contra hne
    push_neg at hne
    have hall : (normList q.required_keywords).all
        (fun r => isSubstr r (pyLower (ta.getD []))) = true := by
      rw [List.all_eq_true]
      intro r hr
      have := hne r hr
      simpa [Bool.not_eq_false] using this
    rw [hall] at hnall
    cases hnall
  · rintro ⟨r, hr, hfail⟩
    constructor
    · simp [List.ne_nil_of_mem hr]
    · cases hall2 : (normList q.required_keywords).all
          (fun r => isSubstr r (pyLower (ta.getD []))) with
      | false => simp [hall2]
      | true =>
          rw [List.all_eq_true] at hall2
          rw [hall2 r hr] at hfail
          cases hfail

/-- C3: in qa auto-grading, for a question with positive points p and
normalized lists A (acceptable), R (required), K (optional), N (negative):
an answer whose lowercased trimmed text equals an entry of A earns p; else a
missing required keyword earns 0; else the credit is
clamp(opt_credit - 0.2 p (matched N count), 0, p) with opt_credit equal to p
times the matched fraction of K when K is nonempty and to p otherwise; the
grade is 100 times the credit sum over the qa point total rounded to 2
decimals; on the scenario question (20 points, required "recursion",
optional "base case" and "stack", negative "goto") the answer
"recursion with a base case" earns credit 10. -/
theorem qa_grading_spec (questions : List QAQuestion)
    (hqn : (questions.map (fun q => q.id)).Nodup) :
    (∀ q ∈ questions, ∀ ans : QAAnswer, ans.question_id = some q.id → 0 < q.points →
      (pyStrip (pyLower (ans.text_answer.getD [])) ∈ normList q.acceptable_answers →
          qaCredit questions ans = q.points)
      ∧ (pyStrip (pyLower (ans.text_answer.getD [])) ∉ normList q.acceptable_answers →
          (∃ r ∈ normList q.required_keywords,
              isSubstr r (pyLower (ans.text_answer.getD [])) = false) →
          qaCredit questions ans = 0)
      ∧ (pyStrip (pyLower (ans.text_answer.getD [])) ∉ normList q.acceptable_answers →
          (∀ r ∈ normList q.required_keywords,
              isSubstr r (pyLower (ans.text_answer.getD [])) = true) →
          qaCredit questions ans =
            max 0 (min q.points
              ((if normList q.keywords ≠ [] then
                  q.points * ((((normList q.keywords).filter
                      (fun kw => isSubstr kw (pyLower (ans.text_answer.getD [])))).length : ℚ)
                    / (((normList q.keywords).length : ℕ) : ℚ))
                else q.points)
                - q.points * (2/10) * (((normList q.negative_keywords).filter
                    (fun kw => isSubstr kw (pyLower (ans.text_answer.getD [])))).length : ℚ)))))
    ∧ (∀ answers : List QAAnswer, qaTotal questions ≠ 0 →
        qaGrade questions answers =
          pyRound2 (100 * qaEarned questions answers / qaTotal questions))
    ∧ qaCredit [exQQ] ⟨some 1, some "recursion with a base case".data⟩ = 10 := by
  refine ⟨?h1, ?h2, ?h3⟩
  · intro q hq ans hk hpts
    have hfind : findQA questions q.id = some q := by
      unfold findQA
      exact find?_key_of_nodup (fun q2 => q2.id) hqn hq
    have hcred : qaCredit questions ans = qaScore q ans := by
      simp [qaCredit, hk, hfind]
    rw [hcred]
    unfold qaScore
    rw [if_neg (not_le.mpr hpts)]
    dsimp only
    refine ⟨?ca, ?cb, ?cc⟩
    · intro hmem
      rw [if_pos ((qaMatch_accept_iff q ans.text_answer).mpr hmem)]
    · intro hnmem hfail
      have hc1 : ((qaMatch q ans.text_answer).acceptNonempty
          && (qaMatch q ans.text_answer).acceptHit) = false := by
        rw [Bool.eq_false_iff]
        intro hc
        exact hnmem ((qaMatch_accept_iff q ans.text_answer).mp hc)
      rw [hc1]
      simp only [Bool.false_eq_true, if_false]
      rw [if_pos ((qaMatch_required_iff q ans.text_answer).mpr hfail)]
    · intro hnmem hall
      have hc1 : ((qaMatch q ans.text_answer).acceptNonempty
          && (qaMatch q ans.text_answer).acceptHit) = false := by
        rw [Bool.eq_false_iff]
        intro hc
        exact hnmem ((qaMatch_accept_iff q ans.text_answer).mp hc)
      have hc2 : ((qaMatch q ans.text_answer).reqNonempty
          && !(qaMatch q ans.text_answer).reqAllPresent) = false := by
        rw [Bool.eq_false_iff]
        intro hc
        rcases (qaMatch_required_iff q ans.text_answer).mp hc with ⟨r, hr, hfail⟩
        rw [hall r hr] at hfail
        cases hfail
      rw [hc1]
      simp only [Bool.false_eq_true, if_false]
      rw [hc2]
      simp only [Bool.false_eq_true, if_false]
      by_cases hkk : normList q.keywords = []
      · by_cases hnn : normList q.negative_keywords = []
        · simp [qaMatch, hkk, hnn]
        · simp [qaMatch, hkk, hnn]
      · by_cases hnn : normList q.negative_keywords = []
        · simp [qaMatch, hkk, hnn, List.length_eq_zero]
        · simp [qaMatch, hkk, hnn, List.length_eq_zero]
  · intro answers h0
    unfold qaGrade orOne
    rw [if_neg h0]
    refine congrArg pyRound2 ?harg
    ring
  · have hm : qaMatch exQQ (some "recursion with a base case".data) =
        ⟨false, false, true, true, 2, 1, true, 0⟩ := rfl
    have hf : findQA [exQQ] 1 = some exQQ := rfl
    have hp : exQQ.points = 20 := rfl
    simp only [qaCredit, hf]
    unfold qaScore
    rw [hm, hp]
    norm_num

/-- Witness for C3: the scenario credit together with an acceptable-answer
hit (a one-question assignment with acceptable answer "four", answered
"four") and a required-keyword miss (required "recursion", answer "loops"),
and the grade formula at a one-question total of 20 points. -/
theorem qa_grading_spec_witness :
    qaCredit [exQQ] ⟨some 1, some "recursion with a base case".data⟩ = 10
    ∧ qaCredit [⟨1, 20, [], [], [], ["four".data]⟩] ⟨some 1, some "four".data⟩ = 20
    ∧ qaCredit [exQQ] ⟨some 1, some "loops only".data⟩ = 0
    ∧ qaGrade [exQQ] [⟨some 1, some "recursion with a base case".data⟩]
        = pyRound2 (100 * qaEarned [exQQ] [⟨some 1, some "recursion with a base case".data⟩]
            / qaTotal [exQQ]) := by
  refine ⟨?w1, ?w2, ?w3, ?w4⟩
  · exact (qa_grading_spec [exQQ] (by decide)).2.2
  · have h := ((qa_grading_spec [⟨1, 20, [], [], [], ["four".data]⟩]
        (by decide)).1 ⟨1, 20, [], [], [], ["four".data]⟩ (by simp)
        ⟨some 1, some "four".data⟩ rfl (by norm_num)).1 (by decide)
    simpa using h
  · have h := ((qa_grading_spec [exQQ] (by decide)).1 exQQ (by simp)
        ⟨some 1, some "loops only".data⟩ rfl (by norm_num [exQQ])).2.1
        (by decide) ⟨"recursion".data, by decide, by decide⟩
    simpa using h
  · exact (qa_grading_spec [exQQ] (by decide)).2.1
      [⟨some 1, some "recursion with a base case".data⟩] (by norm_num [qaTotal, exQQ])

theorem updateAt_get?_self {α : Type} (l : List α) (i : ℕ) (f : α → α) :
    (updateAt l i f).get? i = (l.get? i).map f := by
  induction l generalizing i with
  | nil => cases i <;> rfl
  | cons a t ih =>
      cases i with
      | zero => rfl
      | succ i2 => exact ih i2

theorem updateAt_get?_other {α : Type} (l : List α) (i k : ℕ) (f : α → α)
    (h : k ≠ i) : (updateAt l i f).get? k = l.get? k := by
  induction l generalizing i k with
  | nil => cases i <;> rfl
  | cons a t ih =>
      cases i with
      | zero =>
          cases k with
          | zero => exact absurd rfl h
          | succ k2 => rfl
      | succ i2 =>
          cases k with
          | zero => rfl
          | succ k2 => exact ih i2 k2 (fun he => h (congrArg Nat.succ he))

theorem updateAt_length {α : Type} (l : List α) (i : ℕ) (f : α → α) :
    (updateAt l i f).length = l.length := by
  induction l generalizing i with
  | nil => cases i <;> rfl
  | cons a t ih =>
      cases i with
      | zero => rfl
      | succ i2 => simpa [updateAt] using ih i2

theorem updateAt_mem {α : Type} (l : List α) (i : ℕ) (f : α → α) :
    ∀ b ∈ updateAt l i f, b ∈ l ∨ ∃ a, l.get? i = some a ∧ b = f a := by
  induction l generalizing i with
  | nil =>
      intro b hb
      cases i <;> cases hb
  | cons a t ih =>
      intro b hb
      cases i with
      | zero =>
          rcases List.mem_cons.mp hb with rfl | hbt
          · exact Or.inr ⟨a, rfl, rfl⟩
          · exact Or.inl (List.mem_cons_of_mem a hbt)
      | succ i2 =>
          rcases List.mem_cons.mp hb with rfl | hbt
          · exact Or.inl (List.mem_cons_self b t)
          · rcases ih i2 b hbt with hin | ⟨a2, hget, hbf⟩
            · exact Or.inl (List.mem_cons_of_mem a hin)
            · exact Or.inr ⟨a2, hget, hbf⟩

theorem map_updateAt_eq {α β : Type} (l : List α) (i : ℕ) (f : α → α)
    (g : α → β) (h : ∀ a, g (f a) = g a) :
    (updateAt l i f).map g = l.map g := by
  induction l generalizing i with
  | nil => cases i <;> rfl
  | cons a t ih =>
      cases i with
      | zero => simp [updateAt, h a]
      | succ i2 => simp [updateAt, ih i2]

theorem gradeAt_eq_of_asgs {s1 s2 : EngineState} (h : s1.asgs = s2.asgs)
    (i j : ℕ) : gradeAt s1 i j = gradeAt s2 i j := by
  unfold gradeAt
  rw [h]

theorem gradeAt_grade_submission_step (s : EngineState) (i j : ℕ) (g : ℚ)
    (hne : subAt s i j ≠ none) :
    gradeAt (grade_submission_step s i j g) i j = some g := by
  unfold subAt at hne
  rcases hget : s.asgs.get? i with _ | a
  · rw [hget] at hne
    exact absurd rfl hne
  · rw [hget] at hne
    dsimp only at hne
    rcases hsub : a.subs.get? j with _ | sub
    · rw [hsub] at hne
      exact absurd rfl hne
    · unfold gradeAt grade_submission_step
      dsimp only
      rw [updateAt_get?_self, hget]
      dsimp only [Option.map]
      rw [updateAt_get?_self, hsub]
      rfl

/-- C7 counterexample: manual teacher grading stores the supplied grade
without range validation; grading the pending submission of `exUngraded`
with 150 leaves a stored grade of 150, outside [0, 100]. -/
theorem manual_grade_unbounded :
    gradeAt (grade_submission exUngraded 0 0 150) 0 0 = some 150
    ∧ ¬ ((150 : ℚ) ≤ 100) := by
  constructor
  · have hasgs := (check_completion_fst_fields (grade_submission_step exUngraded 0 0 150)).2
    unfold grade_submission
    rw [gradeAt_eq_of_asgs hasgs]
    exact gradeAt_grade_submission_step exUngraded 0 0 150 (by rw [show subAt exUngraded 0 0 = some ⟨1, SStatus.submitted, none⟩ from rfl]; simp)
  · norm_num

/-- C7 amended: the auto-graders do keep grades in [0, 100] and earned
credit below the point total, provided ids are unique, each answer entry
references a distinct question and points are nonnegative; manual grading,
however, stores the teacher-supplied grade unchanged and unvalidated, so the
bound holds for it only when the input obeys it. -/
theorem grading_bounds (mq : List MCQQuestion) (mans : List MCQAnswer)
    (qaqs : List QAQuestion) (qans : List QAAnswer)
    (hmqn : (mq.map (fun q => q.id)).Nodup)
    (hman : (mans.filterMap (fun a => a.question_id)).Nodup)
    (hmp : ∀ q ∈ mq, 0 ≤ q.points)
    (hqqn : (qaqs.map (fun q => q.id)).Nodup)
    (hqan : (qans.filterMap (fun a => a.question_id)).Nodup)
    (hqp : ∀ q ∈ qaqs, 0 ≤ q.points) :
    (0 ≤ mcqEarned mq mans ∧ mcqEarned mq mans ≤ mcqTotal mq
      ∧ 0 ≤ mcqGrade mq mans ∧ mcqGrade mq mans ≤ 100)
    ∧ (0 ≤ qaEarned qaqs qans ∧ qaEarned qaqs qans ≤ qaTotal qaqs
      ∧ 0 ≤ qaGrade qaqs qans ∧ qaGrade qaqs qans ≤ 100)
    ∧ (∀ (s : EngineState) (i j : ℕ) (g : ℚ), subAt s i j ≠ none →
        gradeAt (grade_submission s i j g) i j = some g) := by
  refine ⟨⟨?m1, ?m2, ?m3, ?m4⟩, ⟨?q1, ?q2, ?q3, ?q4⟩, ?man⟩
  · exact mcqEarned_nonneg mq mans hmp
  · exact mcqEarned_le_total mq mans hmqn hman hmp
  · exact (mcqGrade_bounds mq mans hmqn hman hmp).1
  · exact (mcqGrade_bounds mq mans hmqn hman hmp).2
  · exact qaEarned_nonneg qaqs qans hqp
  · exact qaEarned_le_total qaqs qans hqqn hqan hqp
  · exact (qaGrade_bounds qaqs qans hqqn hqan hqp).1
  · exact (qaGrade_bounds qaqs qans hqqn hqan hqp).2
  · intro s i j g hne
    have hasgs := (check_completion_fst_fields (grade_submission_step s i j g)).2
    unfold grade_submission
    rw [gradeAt_eq_of_asgs hasgs]
    exact gradeAt_grade_submission_step s i j g hne

/-- Witness for the amended C7 on the scenario data: the mcq scenario grade
50 and the qa scenario grade both lie in [0, 100], and manual grading at 85
stores 85. -/
theorem grading_bounds_witness :
    (0 ≤ mcqGrade [exQ1, exQ2] [⟨some 1, {10, 11}⟩, ⟨some 2, {21}⟩]
      ∧ mcqGrade [exQ1, exQ2] [⟨some 1, {10, 11}⟩, ⟨some 2, {21}⟩] ≤ 100)
    ∧ (0 ≤ qaGrade [exQQ] [⟨some 1, some "recursion with a base case".data⟩]
      ∧ qaGrade [exQQ] [⟨some 1, some "recursion with a base case".data⟩] ≤ 100)
    ∧ gradeAt (grade_submission exUngraded 0 0 85) 0 0 = some 85 := by
  have h := grading_bounds [exQ1, exQ2] [⟨some 1, {10, 11}⟩, ⟨some 2, {21}⟩]
    [exQQ] [⟨some 1, some "recursion with a base case".data⟩]
    (by decide) (by decide) (by intro q hq; fin_cases hq <;> norm_num [exQ1, exQ2])
    (by decide) (by decide) (by intro q hq; fin_cases hq; norm_num [exQQ])
  refine ⟨⟨h.1.2.2.1, h.1.2.2.2⟩, ⟨h.2.1.2.2.1, h.2.1.2.2.2⟩, ?wman⟩
  exact h.2.2 exUngraded 0 0 85
    (by rw [show subAt exUngraded 0 0 = some ⟨1, SStatus.submitted, none⟩ from rfl]; simp)

theorem gate_allow_inv (pg : ℚ) (ma : ℕ) (ty : AType) (existing : List Sub)
    (n : ℕ) (h : submissionGate pg ma ty existing = GateResult.allow n) :
    n = existing.length + 1 := by
  unfold submissionGate at h
  dsimp only at h
  split at h
  · cases h
  · split at h
    · cases h
    · split at h
      · cases h
      · injection h with hn
        omega

theorem contiguous_step (s : EngineState) (op : Op)
    (h : ∀ a ∈ s.asgs, a.subs.map (fun sub => sub.attempt_number)
        = List.range' 1 a.subs.length) :
    ∀ a ∈ (step s op).asgs, a.subs.map (fun sub => sub.attempt_number)
        = List.range' 1 a.subs.length := by
  cases op with
  | attempt i g =>
      unfold step
      dsimp only
      rcases hget : s.asgs.get? i with _ | a0
      · exact h
      · rcases hgate : submissionGate a0.passing_grade a0.max_attempts
            a0.assignment_type a0.subs with _ | _ | _ | n
        · simpa only [hgate] using h
        · simpa only [hgate] using h
        · simpa only [hgate] using h
        · simp only [hgate]
          intro b hb
          rcases updateAt_mem s.asgs i _ b hb with hin | ⟨a2, hget2, hbf⟩
          · exact h b hin
          · rw [hget] at hget2
            injection hget2 with ha2
            subst ha2
            subst hbf
            have hlen : n = a0.subs.length + 1 := gate_allow_inv _ _ _ _ n hgate
            dsimp only
            rw [List.map_append, h a0 (List.get?_mem hget), List.length_append]
            simp only [List.map_cons, List.map_nil, List.length_cons, List.length_nil]
            rw [hlen]
            rw [show a0.subs.length + (0 + 1) = a0.subs.length + 1 by omega]
            rw [List.range'_concat 1 a0.subs.length]
            simp only [one_mul]
            rw [show 1 + a0.subs.length = a0.subs.length + 1 by omega]
  | gradeManual i j g =>
      unfold step grade_submission
      intro b hb
      rw [(check_completion_fst_fields (grade_submission_step s i j g)).2] at hb
      unfold grade_submission_step at hb
      dsimp only at hb
      rcases updateAt_mem s.asgs i _ b hb with hin | ⟨a2, hget2, hbf⟩
      · exact h b hin
      · subst hbf
        dsimp only
        rw [map_updateAt_eq a2.subs j
          (fun sub => Sub.mk sub.attempt_number SStatus.graded (some g))
          (fun sub => sub.attempt_number) (fun sub => rfl)]
        rw [updateAt_length]
        exact h a2 (List.get?_mem hget2)
  | markContent idx =>
      unfold step mark_as_completed
      dsimp only
      rcases hget : s.contents.get? idx with _ | c
      · exact h
      · dsimp only
        by_cases hc : c = true
        · rw [if_pos hc]
          exact h
        · rw [if_neg hc]
          intro b hb
          rw [(check_completion_fst_fields (mark_content_step s idx)).2] at hb
          exact h b hb
  | refresh =>
      unfold step
      intro b hb
      rw [(check_completion_fst_fields s).2] at hb
      exact h b hb

/-- C8: for every (enrollment, assignment) pair, after any sequence of
engine events starting from a state whose attempt numbers are contiguous
(in particular from a state with no submissions), the attempt numbers of
each assignment form the contiguous sequence 1, 2, ..., n with no gaps and
no duplicates: the gate numbers an allowed attempt count(prior) + 1, and no
other event changes attempt numbers. -/
theorem attempt_numbers_contiguous (s : EngineState) (ops : List Op)
    (hinv : ∀ a ∈ s.asgs, a.subs.map (fun sub => sub.attempt_number)
        = List.range' 1 a.subs.length) :
    ∀ a ∈ (run s ops).asgs, a.subs.map (fun sub => sub.attempt_number)
        = List.range' 1 a.subs.length := by
  induction ops generalizing s with
  | nil => exact hinv
  | cons op rest ih => exact ih (step s op) (contiguous_step s op hinv)

/-- Witness for C8: two allowed attempts on a fresh qa assignment produce
attempt numbers [1, 2]. -/
theorem attempt_numbers_contiguous_witness :
    (⟨60, 3, AType.qa,
        [⟨1, SStatus.graded, some 40⟩, ⟨2, SStatus.graded, some 50⟩]⟩ : Asg).subs.map
        (fun sub => sub.attempt_number)
      = List.range' 1 2 := by
  have hrun : run ⟨EStatus.active, 0, [], [⟨60, 3, AType.qa, []⟩]⟩
      [Op.attempt 0 (some 40), Op.attempt 0 (some 50)]
      = ⟨EStatus.active, 0, [],
          [⟨60, 3, AType.qa,
            [⟨1, SStatus.graded, some 40⟩, ⟨2, SStatus.graded, some 50⟩]⟩]⟩ := rfl
  have h := attempt_numbers_contiguous ⟨EStatus.active, 0, [], [⟨60, 3, AType.qa, []⟩]⟩
    [Op.attempt 0 (some 40), Op.attempt 0 (some 50)]
    (by intro a ha; fin_cases ha; rfl)
  rw [hrun] at h
  exact h _ (List.mem_cons_self _ _)

/-- C5 counterexample: with the race in which a concurrent request inserts
the certificate between the existence check and the create, the uniqueness
violation raised by the create propagates out of
`check_completion_and_issue_certificate` as an error instead of being
treated as "already issued": on the fully completed enrollment `exDone` the
racy run returns an error. -/
theorem certificate_violation_not_swallowed :
    check_completion_race true exDone = Except.error () := by
  unfold check_completion_race
  dsimp only
  rw [if_pos]
  · rfl
  · constructor
    · norm_num [calculate_progress, exDone, pyRound1, rhe]
    · simp [exDone]

/-- C5 amended: the (student, course) unique constraint does keep the
certificate count at one even under a concurrent duplicate trigger, but the
uniqueness violation raised while creating the certificate is not caught in
`check_completion_and_issue_certificate`: it propagates as an error rather
than being swallowed as a benign "already issued" outcome. -/
theorem certificate_race_spec :
    (∀ (race : Bool) (s : EngineState) (s2 : EngineState) (b : Bool),
        s.certCount ≤ 1 → check_completion_race race s = Except.ok (s2, b) →
        s2.certCount ≤ 1)
    ∧ (∀ s : EngineState, 100 ≤ calculate_progress s →
        s.status ≠ EStatus.completed → s.certCount = 0 →
        check_completion_race true s = Except.error ()) := by
  constructor
  · intro race s s2 b hle hok
    unfold check_completion_race at hok
    dsimp only at hok
    repeat split at hok
    all_goals cases hok
    all_goals first
      | (simp; done)
      | simpa using hle
  · intro s hpr hst hc0
    unfold check_completion_race
    dsimp only
    rw [if_pos ⟨hpr, hst⟩, if_pos hc0]
    simp

/-- Witness for the amended C5: on `exDone`, the race-free run issues one
certificate (count stays at one), and the racy run surfaces the uniqueness
violation as an error. -/
theorem certificate_race_spec_witness :
    (⟨EStatus.completed, 1, [true], []⟩ : EngineState).certCount ≤ 1
    ∧ check_completion_race true exDone = Except.error () := by
  constructor
  · refine certificate_race_spec.1 false exDone ⟨EStatus.completed, 1, [true], []⟩ true
      (by norm_num [exDone]) ?hok
    unfold check_completion_race
    dsimp only
    rw [if_pos]
    · rfl
    · constructor
      · norm_num [calculate_progress, exDone, pyRound1, rhe]
      · simp [exDone]
  · exact certificate_race_spec.2 exDone
      (by norm_num [calculate_progress, exDone, pyRound1, rhe])
      (by simp [exDone]) rfl

/-- C9 counterexample: a failure raised during the completion recheck is not
recovered inside the triggering methods: with a failing recheck, marking the
incomplete content item of `exIncomplete` complete returns the error to the
caller, and so does grading the pending submission of `exUngraded` — neither
`mark_as_completed` nor `grade_submission` wraps the recheck in a
try/except. -/
theorem recompute_failure_surfaces :
    (mark_as_completedE chkFail exIncomplete 0).2 = Except.error ()
    ∧ (grade_submissionE chkFail exUngraded 0 0 85).2 = Except.error () := by
  constructor
  · rfl
  · rfl

/-- C9 amended: the triggering write is persisted before the completion
recheck runs, so a recheck failure cannot undo it — the returned state
carries the completed flag resp. the stored grade — but the failure itself
propagates out of `mark_as_completed` / `grade_submission` to the caller
instead of being recovered locally. -/
theorem recompute_failure_spec (chk : EngineState → Except Unit EngineState)
    (s : EngineState) (idx i j : ℕ) (g : ℚ) :
    (s.contents.get? idx = some false →
        chk (mark_content_step s idx) = Except.error () →
        mark_as_completedE chk s idx = (mark_content_step s idx, Except.error ())
        ∧ (mark_content_step s idx).contents.get? idx = some true)
    ∧ (subAt s i j ≠ none →
        chk (grade_submission_step s i j g) = Except.error () →
        grade_submissionE chk s i j g = (grade_submission_step s i j g, Except.error ())
        ∧ gradeAt (grade_submission_step s i j g) i j = some g) := by
  constructor
  · intro hget hchk
    constructor
    · unfold mark_as_completedE
      rw [hget]
      dsimp only
      rw [if_neg (by simp)]
      rw [hchk]
    · unfold mark_content_step
      dsimp only
      rw [updateAt_get?_self, hget]
      rfl
  · intro hne hchk
    constructor
    · unfold grade_submissionE
      dsimp only
      rw [hchk]
    · exact gradeAt_grade_submission_step s i j g hne

/-- Witness for the amended C9: on `exIncomplete` with the failing recheck,
the flag write persists and the error is returned; likewise the grade write
on `exUngraded`. -/
theorem recompute_failure_spec_witness :
    (mark_as_completedE chkFail exIncomplete 0
        = (mark_content_step exIncomplete 0, Except.error ())
      ∧ (mark_content_step exIncomplete 0).contents.get? 0 = some true)
    ∧ (grade_submissionE chkFail exUngraded 0 0 85
        = (grade_submission_step exUngraded 0 0 85, Except.error ())
      ∧ gradeAt (grade_submission_step exUngraded 0 0 85) 0 0 = some 85) := by
  constructor
  · exact (recompute_failure_spec chkFail exIncomplete 0 0 0 85).1 rfl rfl
  · exact (recompute_failure_spec chkFail exUngraded 0 0 0 85).2
      (by rw [show subAt exUngraded 0 0 = some ⟨1, SStatus.submitted, none⟩ from rfl]; simp)
      rfl

end LMS
